import Mathlib

/-!
Shallow embedding of the training notebook of the cat/dog classifier
(`cat_dog_classifier/jupyter_notebooks/model_training.ipynb`).

The numeric tensor arithmetic performed by the underlying library (forward
pass, cross-entropy, autodifferentiation) is treated as an opaque service, as
the design document states; the loop structure, the dataset split, the batch
producer, the optimizer update rule and the notebook's top-level cell sequence
are embedded faithfully.  Scalar values carried by the loop are modelled as
rationals.  The one place where the spec makes a claim about the floating-point
computation itself — `train_size = int(0.8 * len(training_set))` — is embedded
bit-exactly as IEEE-754 double-precision arithmetic over ℕ.
-/

namespace CatDog

/-! ### Bit-length and round-to-nearest-even, the primitives of the
IEEE-754 double model for `int(0.8 * N)` -/

/-- Fuel-driven binary length: `szGo fuel n` is the number of binary digits of
`n`, provided `n ≤ fuel`. -/
def szGo : ℕ → ℕ → ℕ
  | 0, _ => 0
  | fuel + 1, n => if n = 0 then 0 else szGo fuel (n / 2) + 1

/-- Number of binary digits of `n` (0 for 0). -/
def sz (n : ℕ) : ℕ := szGo n n

/-- Round `M / 2^sh` to the nearest integer, ties to even — the IEEE-754
rounding of a dyadic mantissa when `sh` low bits are discarded. -/
def rne (M sh : ℕ) : ℕ :=
  if 2 * (M % 2 ^ sh) > 2 ^ sh ∨ (2 * (M % 2 ^ sh) = 2 ^ sh ∧ (M / 2 ^ sh) % 2 = 1)
  then M / 2 ^ sh + 1 else M / 2 ^ sh

/-- Numerator of the IEEE-754 double nearest to 0.8: `fl(0.8) = c0 / 2^52`. -/
def c0 : ℕ := 3602879701896397

/-- Value of the IEEE-754 double nearest to the natural number `N`
(exact for `N < 2^53`); models Python's `float(N)` conversion. -/
def floatOfNat (N : ℕ) : ℕ :=
  rne N (sz N - 53) * 2 ^ (sz N - 53)

/-- The notebook's `train_size = int(0.8 * len(training_set))`, modelled
bit-exactly: `fl(0.8) * fl(N)` is the exact product `c0 * fl(N) / 2^52`
rounded to a 53-bit significand, and `int` truncates (= floor, value ≥ 0). -/
def train_size (N : ℕ) : ℕ :=
  let M := c0 * floatOfNat N
  rne M (sz M - 53) * 2 ^ (sz M - 53) / 2 ^ 52

/-- The notebook's `val_size = len(training_set) - train_size`. -/
def val_size (N : ℕ) : ℕ := N - train_size N

/-! ### `torch.utils.data.random_split`

`random_split(dataset, [t, n - t])` draws a random permutation of the index
range and hands the first `t` indices to the first subset and the rest to the
second.  The permutation is a parameter here (randomness is external). -/

/-- Split a permuted index list at position `t`, as `random_split` does with
lengths `[t, N - t]`. -/
def random_split (perm : List ℕ) (t : ℕ) : List ℕ × List ℕ :=
  (perm.take t, perm.drop t)

/-! ### Samples and the batch producer -/

/-- A dataset item: preprocessed image tensor (flattened) and class index. -/
structure Sample where
  image : List ℚ
  label : ℕ
deriving DecidableEq

/-- Fuel-driven worker for `chunks`: peel off `B`-element groups while fuel
lasts. -/
def chunksGo (B : ℕ) : ℕ → List α → List (List α)
  | 0, _ => []
  | fuel + 1, l =>
    match l with
    | [] => []
    | x :: xs => (x :: xs).take B :: chunksGo B fuel ((x :: xs).drop B)

/-- Consecutive grouping of a list into batches of size `B`, the last batch
possibly shorter — the grouping performed by a `DataLoader` with
`drop_last=False`.  Returns no batches when `B = 0` (the library rejects a
non-positive batch size).  `chunksGo` is the same recursion driven by a fuel
argument, which the list's length always saturates. -/
def chunks (B : ℕ) (l : List α) : List (List α) :=
  if B = 0 then [] else chunksGo B l.length l

/-! ### Network and optimizer state

The pretrained network's internals are an opaque library service (a spec
non-goal), so the forward pass `fw`, the loss `lossFn` and the gradient of the
loss `gradFn` are parameters of the loop; the loop's own state — the parameter
vector, the train/eval mode flag, the momentum buffer and the accumulated
gradients — is explicit. -/

/-- The model object: its parameter vector and the flag toggled by
`model.train()` / `model.eval()`. -/
structure NetState where
  params : List ℚ
  training : Bool
deriving DecidableEq

/-- The `torch.optim.SGD` state: per-parameter momentum buffer (initially 0,
matching the first-step initialization `buf = grad`) and the gradient
accumulator written by `backward()` and cleared by `zero_grad()`. -/
structure OptimState where
  buf : List ℚ
  grads : List ℚ
deriving DecidableEq

/-- The notebook's `lr=1e-3`. -/
def lr : ℚ := 1 / 1000

/-- The notebook's `momentum=0.9`. -/
def momentum : ℚ := 9 / 10

/-- The notebook's `batch_size` loader parameter. -/
def batch_size : ℕ := 64

/-- The notebook's `epochs`. -/
def epochs : ℕ := 20

/-- One `optimizer.step()` of SGD with momentum `mu` and learning rate `eta`:
`buf ← mu·buf + grad`, `param ← param - eta·buf`.  Returns (new params,
new momentum buffer). -/
def sgdStep (eta mu : ℚ) (params buf grads : List ℚ) : List ℚ × List ℚ :=
  let b := List.zipWith (fun bi gi => mu * bi + gi) buf grads
  (List.zipWith (fun pi bi => pi - eta * bi) params b, b)

/-! ### The `test` evaluation function -/

/-- Index of the first maximal element — `tensor.argmax`. -/
def argmaxAux : List ℚ → ℕ → ℕ → ℚ → ℕ
  | [], _, besti, _ => besti
  | x :: xs, i, besti, bestv =>
    if x > bestv then argmaxAux xs (i + 1) i x else argmaxAux xs (i + 1) besti bestv

/-- `argmax` of a score vector (0 on the empty vector). -/
def argmaxIdx : List ℚ → ℕ
  | [] => 0
  | x :: xs => argmaxAux xs 1 0 x

/-- Per-sample forward pass over a batch: `pred = model(X)`. -/
def forwardBatch (fw : List ℚ → List ℚ → List ℚ) (p : List ℚ) (b : List Sample) :
    List (List ℚ) :=
  b.map fun s => fw p s.image

/-- `(pred.argmax(1) == y).sum()`: how many samples of the batch have their
highest-scoring class index equal to the true label. -/
def batchCorrect (preds : List (List ℚ)) (labels : List ℕ) : ℕ :=
  (List.zipWith (fun p y => if argmaxIdx p = y then 1 else 0) preds labels).sum

/-- The loss of one batch: `loss_fn(model(X), y)`. -/
def batchLoss (fw : List ℚ → List ℚ → List ℚ) (lossFn : List (List ℚ) → List ℕ → ℚ)
    (p : List ℚ) (b : List Sample) : ℚ :=
  lossFn (forwardBatch fw p b) (b.map Sample.label)

/-- The notebook's `test(dataloader, model, loss_fn)`.  It flips the model to
evaluation mode, runs one full pass over the partition's batches accumulating
`test_loss += loss_fn(pred, y)` and `correct += (pred.argmax(1) == y).sum()`,
then divides by `num_batches = len(dataloader)` and by
`size = len(dataloader.dataset)` and returns `(test_loss, 100*correct)`.
The two divisions are unguarded in the source: a pass with zero batches (or a
zero-size dataset) raises `ZeroDivisionError`, modelled by `none`.  The model
is returned alongside because `model.eval()` mutates its mode flag; no other
field of the model is written (`torch.no_grad` — no gradients, no updates). -/
def test (fw : List ℚ → List ℚ → List ℚ) (lossFn : List (List ℚ) → List ℕ → ℚ)
    (B : ℕ) (part : List Sample) (m : NetState) : NetState × Option (ℚ × ℚ) :=
  let m' : NetState := { m with training := false }
  let size := part.length
  let batches := chunks B part
  let numBatches := batches.length
  let totals : ℚ × ℕ := batches.foldl
    (fun acc b =>
      (acc.1 + batchLoss fw lossFn m'.params b,
       acc.2 + batchCorrect (forwardBatch fw m'.params b) (b.map Sample.label)))
    (0, 0)
  if numBatches = 0 then (m', none)
  else if size = 0 then (m', none)
  else (m', some (totals.1 / numBatches, 100 * ((totals.2 : ℚ) / size)))

/-! ### The `train` training function -/

/-- The body of `train`'s loop over `enumerate(dataloader)`, one call per
batch, in source order: forward pass, loss, `loss.backward()` (gradients
accumulate into the optimizer's tensors), `optimizer.step()`,
`optimizer.zero_grad()`; the local `loss` carries the current batch's loss. -/
def trainGo (fw : List ℚ → List ℚ → List ℚ) (lossFn : List (List ℚ) → List ℕ → ℚ)
    (gradFn : List ℚ → List Sample → List ℚ) (eta mu : ℚ) :
    List (List Sample) → NetState → OptimState → ℚ → NetState × OptimState × ℚ
  | [], net, opt, loss => (net, opt, loss)
  | b :: bs, net, opt, _ =>
    let L := batchLoss fw lossFn net.params b
    let g := List.zipWith (· + ·) opt.grads (gradFn net.params b)
    let pb := sgdStep eta mu net.params opt.buf g
    trainGo fw lossFn gradFn eta mu bs { net with params := pb.1 }
      { buf := pb.2, grads := g.map fun _ => 0 } L

/-- The notebook's `train(dataloader, model, loss_fn, optimizer)`: sets the
model to training mode, initializes the local `loss = 0`, runs `trainGo` over
the partition's batches and returns the final state together with the last
batch's loss (0 when the partition yields no batch). -/
def train (fw : List ℚ → List ℚ → List ℚ) (lossFn : List (List ℚ) → List ℕ → ℚ)
    (gradFn : List ℚ → List Sample → List ℚ) (eta mu : ℚ) (B : ℕ)
    (part : List Sample) (net : NetState) (opt : OptimState) :
    NetState × OptimState × ℚ :=
  trainGo fw lossFn gradFn eta mu (chunks B part) { net with training := true } opt 0

/-! ### Model construction: `model = resnet18().to(device)` -/

/-- The weight enum of `torchvision.models.ResNet18_Weights` (one pretrained
checkpoint is published). -/
inductive ResNet18_Weights where
  | IMAGENET1K_V1
deriving DecidableEq

/-- How a freshly constructed network's parameters are initialized. -/
inductive WeightInit where
  | pretrained (w : ResNet18_Weights)
  | randomInit
deriving DecidableEq

/-- `torchvision.models.resnet18(weights=...)`: the `weights` argument
defaults to `None`; with `None` the network is randomly initialized, and only
an explicit weights enum value loads a pretrained checkpoint.  (In the older
signature `resnet18(pretrained=False)` the default is likewise random
initialization.) -/
def resnet18 (weights : Option ResNet18_Weights := none) : WeightInit :=
  match weights with
  | some w => .pretrained w
  | none => .randomInit

/-- The notebook's model-construction step, `model = resnet18().to(device)`:
`resnet18` is called with no arguments, so the default applies. -/
def notebookModelInit : WeightInit := resnet18

/-! ### Top-level orchestration of the executable cells -/

/-- One externally observable step of the notebook run. -/
inductive RunStep where
  | trainPass (epoch : ℕ)
  | evalPass (part : String)
  | logScalar (series : String) (epoch : ℕ)
  | flushLogs
  | closeLogs
  | printMsg (msg : String)
  | saveParams (path : String)
deriving DecidableEq

/-- Whether a step serializes the model's parameter state to a file. -/
def RunStep.isSaveStep : RunStep → Bool
  | .saveParams _ => true
  | _ => false

/-- The sequence of steps the notebook's executable cells perform after the
data and model are set up: the epoch loop (`train`, log `train/loss`, `test`
on the validation partition, log `validation/loss` and
`validation/accuracy`, for `t in range(epochs)`), the writer shutdown, then
the final cell `test(test_loader, model, loss_fn)` and `print("Done!")`. -/
def notebookRun : List RunStep :=
  ((List.range epochs).map fun t =>
    [RunStep.trainPass t, RunStep.logScalar "train/loss" t,
     RunStep.evalPass "validation",
     RunStep.logScalar "validation/loss" t,
     RunStep.logScalar "validation/accuracy" t]).flatten
  ++ [RunStep.flushLogs, RunStep.closeLogs]
  ++ [RunStep.evalPass "test", RunStep.printMsg "Done!"]

/-- The mutable state threaded through the epoch loop: model, optimizer,
the logged scalar series, and the two partitions built once by
`random_split` before the loop.  The loop body never reassigns the
partitions. -/
structure RunState where
  net : NetState
  opt : OptimState
  logs : List (String × ℕ × ℚ)
  trainPart : List Sample
  valPart : List Sample

/-- One iteration of `for t in range(epochs)`: `train` over the (freshly
shuffled) training partition, log its returned loss, `test` over the
(freshly shuffled) validation partition, log its loss and accuracy.  The
per-epoch shuffles `shT`/`shV` of the two loaders are parameters (their
randomness is external). -/
def runEpoch (fw : List ℚ → List ℚ → List ℚ) (lossFn : List (List ℚ) → List ℕ → ℚ)
    (gradFn : List ℚ → List Sample → List ℚ)
    (shT shV : List Sample → List Sample) (rs : RunState) (t : ℕ) : RunState :=
  let tr :=
    train fw lossFn gradFn lr momentum batch_size (shT rs.trainPart) rs.net rs.opt
  let ev := test fw lossFn batch_size (shV rs.valPart) tr.1
  { rs with
    net := ev.1
    opt := tr.2.1
    logs := rs.logs ++ [("train/loss", t, tr.2.2)] ++
      (match ev.2 with
       | some la =>
         [("validation/loss", t, la.1), ("validation/accuracy", t, la.2)]
       | none => []) }

/-! ### Arithmetic facts about the IEEE-754 model -/

/-- `szGo` of 0 is 0 at any fuel. -/
lemma szGo_zero (fuel : ℕ) : szGo fuel (0 : ℕ) = 0 := by
  cases fuel <;> simp [szGo]

/-- `szGo fuel n` really is the binary length when the fuel saturates `n`. -/
lemma szGo_spec : ∀ fuel n : ℕ, n ≤ fuel → 1 ≤ n →
    2 ^ (szGo fuel n - 1) ≤ n ∧ n < 2 ^ (szGo fuel n) := by
  intro fuel
  induction fuel with
  | zero => intro n h h1; omega
  | succ f ih =>
    intro n h h1
    have hne : n ≠ 0 := by omega
    simp only [szGo, if_neg hne]
    rcases Nat.lt_or_ge n 2 with hn2 | hn2
    · have hn1 : n = 1 := by omega
      subst hn1
      norm_num [szGo_zero]
    · have hdiv1 : 1 ≤ n / 2 := by omega
      have hdivf : n / 2 ≤ f := by omega
      obtain ⟨ih1, ih2⟩ := ih (n / 2) hdivf hdiv1
      set s := szGo f (n / 2) with hs
      have hs1 : 1 ≤ s := by
        by_contra h0
        rw [show s = 0 by omega, pow_zero] at ih2
        omega
      constructor
      · rw [show s + 1 - 1 = s by omega]
        have h2 : (2 : ℕ) ^ s = 2 * 2 ^ (s - 1) := by
          conv_lhs => rw [show s = (s - 1) + 1 by omega]
          rw [pow_succ]; ring
        generalize ha : (2 : ℕ) ^ (s - 1) = a at ih1 h2
        generalize hb : (2 : ℕ) ^ s = b at h2 ⊢
        omega
      · have h2 : (2 : ℕ) ^ (s + 1) = 2 * 2 ^ s := by rw [pow_succ]; ring
        generalize ha : (2 : ℕ) ^ s = a at ih2 h2
        generalize hb : (2 : ℕ) ^ (s + 1) = b at h2 ⊢
        omega

/-- The binary length bounds `n` on both sides. -/
lemma sz_spec (n : ℕ) (h : 1 ≤ n) : 2 ^ (sz n - 1) ≤ n ∧ n < 2 ^ (sz n) :=
  szGo_spec n n le_rfl h

/-- `n < 2^k` forces the binary length of `n` below `k`. -/
lemma sz_le (n k : ℕ) (h : n < 2 ^ k) : sz n ≤ k := by
  rcases Nat.eq_zero_or_pos n with rfl | hn
  · simp [sz, szGo]
  · obtain ⟨h1, h2⟩ := sz_spec n hn
    by_contra hlt
    push_neg at hlt
    have hk : (2 : ℕ) ^ k ≤ 2 ^ (sz n - 1) :=
      Nat.pow_le_pow_right (by norm_num) (by omega)
    exact absurd h (not_lt.mpr (hk.trans h1))

/-- Rounding with no bits discarded is the identity. -/
lemma rne_zero (M : ℕ) : rne M 0 = M := by
  simp [rne, Nat.mod_one]

/-- Helper for `rne_bounds`: the pure inequality content, with the quotient
and remainder abstracted. -/
lemma half_bounds (s q r : ℕ) (hs : 0 < s) (hr : r < s) :
    (s ≤ 2 * r → (q + 1) * s ≤ s * q + r + s / 2 ∧ s * q + r ≤ (q + 1) * s + s / 2) ∧
    (2 * r ≤ s → q * s ≤ s * q + r + s / 2 ∧ s * q + r ≤ q * s + s / 2) := by
  have h1 : (q + 1) * s = s * q + s := by ring
  have h2 : q * s = s * q := by ring
  rw [h1, h2]
  generalize s * q = t
  omega

/-- Round-to-nearest moves the value by at most half the discarded unit:
`|rne M sh * 2^sh - M| ≤ 2^sh / 2`. -/
lemma rne_bounds (M sh : ℕ) :
    rne M sh * 2 ^ sh ≤ M + 2 ^ sh / 2 ∧ M ≤ rne M sh * 2 ^ sh + 2 ^ sh / 2 := by
  have hs : 0 < 2 ^ sh := pow_pos (by norm_num) sh
  have hdm : 2 ^ sh * (M / 2 ^ sh) + M % 2 ^ sh = M := Nat.div_add_mod M (2 ^ sh)
  have hmod : M % 2 ^ sh < 2 ^ sh := Nat.mod_lt M hs
  have key := half_bounds (2 ^ sh) (M / 2 ^ sh) (M % 2 ^ sh) hs hmod
  rw [hdm] at key
  unfold rne
  by_cases hc : 2 * (M % 2 ^ sh) > 2 ^ sh ∨
      (2 * (M % 2 ^ sh) = 2 ^ sh ∧ (M / 2 ^ sh) % 2 = 1)
  · rw [if_pos hc]
    exact key.1 (by omega)
  · rw [if_neg hc]
    push_neg at hc
    exact key.2 (by by_cases h2r : 2 * (M % 2 ^ sh) = 2 ^ sh <;> omega)

/-- Two multiples of `s` within less than `s` of each other are ordered. -/
lemma dvd_le_of_lt_add {s a b : ℕ} (ha : s ∣ a) (hb : s ∣ b) (h : b < a + s) :
    b ≤ a := by
  obtain ⟨x, rfl⟩ := ha
  obtain ⟨y, rfl⟩ := hb
  rcases Nat.eq_zero_or_pos s with rfl | hs
  · simp
  have hxy : y ≤ x := by
    have h1 : s * y < s * (x + 1) := by rw [Nat.mul_add, Nat.mul_one]; omega
    have := Nat.lt_of_mul_lt_mul_left h1
    omega
  exact Nat.mul_le_mul_left s hxy

/-- A natural below `2^53` converts to a double exactly. -/
lemma floatOfNat_eq (N : ℕ) (h : N < 2 ^ 53) : floatOfNat N = N := by
  have hsz : sz N ≤ 53 := sz_le N 53 h
  unfold floatOfNat
  rw [show sz N - 53 = 0 by omega, rne_zero, pow_zero, mul_one]

/-- The amended split-size fact: up to `N = 2^49` (far beyond any feasible
dataset) the double-precision `int(0.8 * N)` agrees with the exact rational
floor `⌊0.8·N⌋ = 4N/5`.  (It ceases to agree for some larger `N`.) -/
lemma train_size_eq (N : ℕ) (h1 : 1 ≤ N) (h2 : N ≤ 2 ^ 49) :
    train_size N = 4 * N / 5 := by
  have h52 : (2 : ℕ) ^ 52 = 4503599627370496 := by norm_num
  have hN53 : N < 2 ^ 53 := lt_of_le_of_lt h2 (by norm_num)
  have hf : floatOfNat N = N := floatOfNat_eq N hN53
  show rne (c0 * floatOfNat N) (sz (c0 * floatOfNat N) - 53) *
      2 ^ (sz (c0 * floatOfNat N) - 53) / 2 ^ 52 = 4 * N / 5
  rw [hf]
  set M := c0 * N with hMdef
  have hMeq : M = 3602879701896397 * N := hMdef
  have hM1 : 1 ≤ M := by
    calc 1 = 1 * 1 := by norm_num
    _ ≤ 3602879701896397 * N := Nat.mul_le_mul (by norm_num) h1
    _ = M := hMeq.symm
  have hspec := sz_spec M hM1
  set sh := sz M - 53 with hshdef
  rcases Nat.eq_zero_or_pos sh with hsh0 | hshpos
  · rw [hsh0, rne_zero, pow_zero, mul_one]
    have hMub : M < 2 ^ 53 := by
      calc M < 2 ^ (sz M) := hspec.2
      _ ≤ 2 ^ 53 := Nat.pow_le_pow_right (by norm_num) (by omega)
    rw [h52]
    have h53 : (2 : ℕ) ^ 53 = 9007199254740992 := by norm_num
    rw [h53] at hMub
    omega
  · have hszM : sz M = sh + 53 := by omega
    have hlow : 2 ^ (sh + 52) ≤ M := by
      have hh := hspec.1
      rw [hszM, show sh + 53 - 1 = sh + 52 by omega] at hh
      exact hh
    have hM52N : M < 2 ^ 52 * N := by
      rw [hMeq, h52]
      exact Nat.mul_lt_mul_of_lt_of_le (by norm_num) le_rfl (by omega)
    have hsN : 2 ^ sh < N := by
      have ha : 2 ^ sh * 2 ^ 52 ≤ M := by rw [← pow_add]; exact hlow
      have hb2 : 2 ^ sh * 2 ^ 52 < N * 2 ^ 52 := by
        rw [mul_comm N (2 ^ 52)]; exact lt_of_le_of_lt ha hM52N
      exact Nat.lt_of_mul_lt_mul_right hb2
    have hsh49 : sh < 49 := by
      have hlt : (2 : ℕ) ^ sh < 2 ^ 49 := lt_of_lt_of_le hsN h2
      exact (Nat.pow_lt_pow_iff_right (by norm_num)).mp hlt
    have hb := rne_bounds M sh
    set R := rne M sh * 2 ^ sh with hR
    have hdvdR : 2 ^ sh ∣ R := ⟨rne M sh, mul_comm _ _⟩
    set k := 4 * N / 5 with hk
    have hdvdK : 2 ^ sh ∣ k * 2 ^ 52 :=
      Dvd.dvd.mul_left (pow_dvd_pow 2 (by omega)) k
    have h5M : 5 * M = 18014398509481985 * N := by rw [hMeq]; ring
    have h2s : (2 : ℕ) ≤ 2 ^ sh := by
      calc (2 : ℕ) = 2 ^ 1 := rfl
      _ ≤ 2 ^ sh := Nat.pow_le_pow_right (by norm_num) hshpos
    have h49 : (2 : ℕ) ^ 49 = 562949953421312 := by norm_num
    have hlt : k * 2 ^ 52 < R + 2 ^ sh := by
      have hbb := hb.2
      rw [h52]
      generalize hgen : (2 : ℕ) ^ sh = s at hbb h2s ⊢
      omega
    have hKR : k * 2 ^ 52 ≤ R := dvd_le_of_lt_add hdvdR hdvdK hlt
    have hRK : R < k * 2 ^ 52 + 2 ^ 52 := by
      have hbb := hb.1
      rw [h52, h49] at *
      generalize hgen : (2 : ℕ) ^ sh = s at hbb hsN h2s ⊢
      omega
    rw [h52] at hKR hRK ⊢
    omega

/-! ### Facts about the batch producer -/

/-- No fuel is needed on the empty list. -/
lemma chunksGo_nil (B fuel : ℕ) : chunksGo B fuel ([] : List α) = [] := by
  cases fuel <;> rfl

/-- Concatenating the batches recovers the list. -/
lemma chunksGo_flatten (B : ℕ) (hB : 0 < B) :
    ∀ (fuel : ℕ) (l : List α), l.length ≤ fuel → (chunksGo B fuel l).flatten = l := by
  intro fuel
  induction fuel with
  | zero =>
    intro l hl
    obtain rfl := List.length_eq_zero.mp (Nat.le_zero.mp hl)
    rfl
  | succ f ih =>
    intro l hl
    cases l with
    | nil => rfl
    | cons x xs =>
      simp only [chunksGo, List.flatten_cons]
      rw [ih ((x :: xs).drop B) (by simp only [List.length_drop]; simp at hl ⊢; omega)]
      exact List.take_append_drop B (x :: xs)

/-- The number of batches is `⌈length / B⌉ = (length + B - 1) / B`. -/
lemma chunksGo_length (B : ℕ) (hB : 0 < B) :
    ∀ (fuel : ℕ) (l : List α), l.length ≤ fuel →
      (chunksGo B fuel l).length = (l.length + B - 1) / B := by
  intro fuel
  induction fuel with
  | zero =>
    intro l hl
    obtain rfl := List.length_eq_zero.mp (Nat.le_zero.mp hl)
    rw [chunksGo_nil]
    simp
    rw [Nat.div_eq_of_lt (by omega)]
  | succ f ih =>
    intro l hl
    cases l with
    | nil =>
      rw [chunksGo_nil]
      simp
      rw [Nat.div_eq_of_lt (by omega)]
    | cons x xs =>
      simp only [chunksGo, List.length_cons]
      rw [ih ((x :: xs).drop B) (by simp only [List.length_drop]; simp at hl ⊢; omega)]
      simp only [List.length_drop, List.length_cons]
      rcases le_or_lt B (xs.length + 1) with hc | hc
      · rw [show xs.length + 1 - B + B - 1 = xs.length by omega]
        rw [show xs.length + 1 + B - 1 = xs.length + B by omega]
        rw [Nat.add_div_right _ hB]
      · rw [show xs.length + 1 - B = 0 by omega]
        rw [Nat.div_eq_of_lt (by omega)]
        have h1 : (xs.length + 1 + B - 1) / B = 1 := by
          apply Nat.div_eq_of_lt_le
          · omega
          · omega
        omega

/-- Every batch is nonempty and no longer than `B`. -/
lemma chunksGo_batch_le (B : ℕ) (hB : 0 < B) :
    ∀ (fuel : ℕ) (l : List α), l.length ≤ fuel →
      ∀ c ∈ chunksGo B fuel l, c.length ≤ B ∧ c ≠ [] := by
  intro fuel
  induction fuel with
  | zero =>
    intro l hl
    obtain rfl := List.length_eq_zero.mp (Nat.le_zero.mp hl)
    simp [chunksGo_nil]
  | succ f ih =>
    intro l hl
    cases l with
    | nil => simp [chunksGo_nil]
    | cons x xs =>
      simp only [chunksGo, List.mem_cons]
      rintro c (rfl | hc)
      · constructor
        · simp only [List.length_take]
          omega
        · have : 0 < ((x :: xs).take B).length := by
            simp only [List.length_take, List.length_cons]
            omega
          exact List.ne_nil_of_length_pos this
      · exact ih ((x :: xs).drop B)
          (by simp only [List.length_drop]; simp at hl ⊢; omega) c hc

/-- All batches but the last have length exactly `B`. -/
lemma chunksGo_dropLast (B : ℕ) (hB : 0 < B) :
    ∀ (fuel : ℕ) (l : List α), l.length ≤ fuel →
      ∀ c ∈ (chunksGo B fuel l).dropLast, c.length = B := by
  intro fuel
  induction fuel with
  | zero =>
    intro l hl
    obtain rfl := List.length_eq_zero.mp (Nat.le_zero.mp hl)
    simp [chunksGo_nil]
  | succ f ih =>
    intro l hl
    cases l with
    | nil => simp [chunksGo_nil]
    | cons x xs =>
      simp only [chunksGo]
      by_cases hrest : chunksGo B f ((x :: xs).drop B) = []
      · rw [hrest]
        simp
      · rw [List.dropLast_cons_of_ne_nil hrest]
        have hdropne : (x :: xs).drop B ≠ [] := by
          intro hdn
          rw [hdn, chunksGo_nil] at hrest
          exact hrest rfl
        have hlen : B < xs.length + 1 := by
          by_contra hcon
          apply hdropne
          apply List.eq_nil_of_length_eq_zero
          simp only [List.length_drop, List.length_cons]
          omega
        simp only [List.mem_cons]
        rintro c (rfl | hc)
        · simp only [List.length_take, List.length_cons]
          omega
        · exact ih ((x :: xs).drop B)
            (by simp only [List.length_drop]; simp at hl ⊢; omega) c hc

/-- The batch list of a nonempty partition is nonempty. -/
lemma chunks_ne_nil (B : ℕ) (l : List α) (hB : 0 < B) (hl : l ≠ []) :
    chunks B l ≠ [] := by
  unfold chunks
  rw [if_neg (by omega)]
  cases l with
  | nil => exact absurd rfl hl
  | cons x xs => simp [chunksGo]

/-! ### Facts about the evaluation and training passes -/

/-- Folding pairwise accumulation equals the two mapped sums. -/
lemma foldl_pair_sum {β : Type} (f : β → ℚ) (g : β → ℕ) :
    ∀ (bs : List β) (a : ℚ) (c : ℕ),
      bs.foldl (fun acc b => (acc.1 + f b, acc.2 + g b)) (a, c) =
        (a + (bs.map f).sum, c + (bs.map g).sum) := by
  intro bs
  induction bs with
  | nil => intro a c; simp
  | cons b bs ih =>
    intro a c
    simp only [List.foldl_cons, List.map_cons, List.sum_cons]
    rw [ih]
    simp only [Prod.mk.injEq]
    exact ⟨by ring, by ring⟩

/-- `test` always returns the model with only its mode flag flipped. -/
lemma test_fst (fw : List ℚ → List ℚ → List ℚ) (lossFn : List (List ℚ) → List ℕ → ℚ)
    (B : ℕ) (part : List Sample) (m : NetState) :
    (test fw lossFn B part m).1 = { m with training := false } := by
  simp only [test]
  split
  · rfl
  · split <;> rfl

/-- On a nonempty partition `test` computes exactly (mean batch loss,
accuracy percentage). -/
lemma test_eval (fw : List ℚ → List ℚ → List ℚ) (lossFn : List (List ℚ) → List ℕ → ℚ)
    (B : ℕ) (part : List Sample) (m : NetState) (hB : 0 < B) (hne : part ≠ []) :
    test fw lossFn B part m =
      ({ m with training := false },
        some (((chunks B part).map (batchLoss fw lossFn m.params)).sum /
            ((chunks B part).length : ℚ),
          100 * ((((chunks B part).map fun b =>
            batchCorrect (forwardBatch fw m.params b) (b.map Sample.label)).sum : ℚ) /
            (part.length : ℚ)))) := by
  have hch : chunks B part ≠ [] := chunks_ne_nil B part hB hne
  have h1 : (chunks B part).length ≠ 0 := by
    intro h
    exact hch (List.eq_nil_of_length_eq_zero h)
  have h2 : part.length ≠ 0 := by
    intro h
    exact hne (List.eq_nil_of_length_eq_zero h)
  simp only [test, if_neg h1, if_neg h2]
  rw [foldl_pair_sum]
  simp

/-- Processing a concatenated batch sequence is processing the two halves in
turn, the second starting from the state the first left behind. -/
lemma trainGo_append (fw : List ℚ → List ℚ → List ℚ)
    (lossFn : List (List ℚ) → List ℕ → ℚ) (gradFn : List ℚ → List Sample → List ℚ)
    (eta mu : ℚ) :
    ∀ (bs₁ bs₂ : List (List Sample)) (net : NetState) (opt : OptimState) (L : ℚ),
      trainGo fw lossFn gradFn eta mu (bs₁ ++ bs₂) net opt L =
        trainGo fw lossFn gradFn eta mu bs₂
          (trainGo fw lossFn gradFn eta mu bs₁ net opt L).1
          (trainGo fw lossFn gradFn eta mu bs₁ net opt L).2.1
          (trainGo fw lossFn gradFn eta mu bs₁ net opt L).2.2 := by
  intro bs₁
  induction bs₁ with
  | nil => intro bs₂ net opt L; rfl
  | cons b bs ih =>
    intro bs₂ net opt L
    simp only [List.cons_append, trainGo, List.append_eq]
    rw [ih]

/-- The training share never exceeds the collection: `int(0.8 * N) ≤ N` for
every `N`, rounding and all. -/
lemma train_size_le (N : ℕ) : train_size N ≤ N := by
  rcases Nat.eq_zero_or_pos N with rfl | hN
  · decide
  show rne (c0 * floatOfNat N) (sz (c0 * floatOfNat N) - 53) *
      2 ^ (sz (c0 * floatOfNat N) - 53) / 2 ^ 52 ≤ N
  set F := floatOfNat N with hF
  have hF1 : F ≤ N + 2 ^ (sz N - 53) / 2 := by
    rw [hF]
    unfold floatOfNat
    exact (rne_bounds N (sz N - 53)).1
  have hFcase : sz N - 53 = 0 ∨ 2 ^ (sz N - 53) * 2 ^ 52 ≤ N := by
    rcases Nat.eq_zero_or_pos (sz N - 53) with h0 | hpos
    · exact Or.inl h0
    · right
      have hsz : sz N = (sz N - 53) + 53 := by omega
      have hlow := (sz_spec N hN).1
      rw [hsz, show sz N - 53 + 53 - 1 = (sz N - 53) + 52 by omega, pow_add] at hlow
      exact hlow
  have hF0 : sz N - 53 = 0 → F = N := by
    intro h0
    rw [hF]
    unfold floatOfNat
    rw [h0, rne_zero, pow_zero, mul_one]
  set M := c0 * F with hM
  rcases Nat.eq_zero_or_pos M with hM0 | hM1
  · rw [hM0]
    simp [sz, szGo, rne_zero]
  have hR1 : rne M (sz M - 53) * 2 ^ (sz M - 53) ≤ M + 2 ^ (sz M - 53) / 2 :=
    (rne_bounds M (sz M - 53)).1
  have hRcase : sz M - 53 = 0 ∨ 2 ^ (sz M - 53) * 2 ^ 52 ≤ M := by
    rcases Nat.eq_zero_or_pos (sz M - 53) with h0 | hpos
    · exact Or.inl h0
    · right
      have hsz : sz M = (sz M - 53) + 53 := by omega
      have hlow := (sz_spec M hM1).1
      rw [hsz, show sz M - 53 + 53 - 1 = (sz M - 53) + 52 by omega, pow_add] at hlow
      exact hlow
  have hR0 : sz M - 53 = 0 → rne M (sz M - 53) * 2 ^ (sz M - 53) = M := by
    intro h0
    rw [h0, rne_zero, pow_zero, mul_one]
  have hc : M = 3602879701896397 * F := hM
  have h52 : (2 : ℕ) ^ 52 = 4503599627370496 := by norm_num
  have hgoal : rne M (sz M - 53) * 2 ^ (sz M - 53) < (N + 1) * 2 ^ 52 := by
    rw [h52] at hFcase hRcase ⊢
    generalize ha : (2 : ℕ) ^ (sz N - 53) = a at hF1 hFcase
    generalize hs : (2 : ℕ) ^ (sz M - 53) = s at hR1 hRcase hR0
    generalize hR : rne M (sz M - 53) * s = R at hR1 hR0 ⊢
    rcases hFcase with hf0 | hfB <;> rcases hRcase with hr0 | hrB
    · have hFN := hF0 hf0
      have hRM := hR0 hr0
      omega
    · have hFN := hF0 hf0
      omega
    · have hRM := hR0 hr0
      omega
    · omega
  have hdiv : rne M (sz M - 53) * 2 ^ (sz M - 53) / 2 ^ 52 < N + 1 := by
    rw [Nat.div_lt_iff_lt_mul (pow_pos (by norm_num) 52)]
    exact hgoal
  omega

/-! ### The claims -/

/-- C1: the claim states that the model-construction step loads ResNet-18
initialized with pretrained weights.  The notebook cell calls `resnet18()`
with no `weights` argument, so the torchvision default `None` applies and the
network is randomly initialized — contradicting the cell comment, which reads
"Load pretrained ResNet-18 model".  This theorem evaluates the
model-construction step of the code. -/
theorem model_construction_is_random_init :
    notebookModelInit = WeightInit.randomInit ∧
    ∀ w, notebookModelInit ≠ WeightInit.pretrained w :=
  ⟨rfl, fun _ h => nomatch h⟩

/-- C2: the claim states that after the epochs and the final test evaluation
the run serializes the trained parameters to a file.  The notebook contains
no serialization step at all: its cell sequence ends with the final test
evaluation and a print, although its own introduction lists "Save the trained
model weights" as a step.  This theorem evaluates the cell sequence. -/
theorem notebook_run_never_serializes :
    notebookRun.filter RunStep.isSaveStep = [] ∧
    notebookRun.drop (notebookRun.length - 2) =
      [RunStep.evalPass "test", RunStep.printMsg "Done!"] := by
  constructor <;> rfl

set_option maxRecDepth 100000 in
/-- C3 (counterexample): at `N = 2251799813685201` the double-precision
`int(0.8 * N)` computed by the partitioner yields `1801439850948161`, one more
than the exact rational floor `⌊0.8·N⌋ = 1801439850948160`, so the claim as
stated (for every `N ≥ 1`) is false. -/
theorem train_size_deviates_from_exact_floor :
    train_size 2251799813685201 = 1801439850948161 ∧
    4 * 2251799813685201 / 5 = 1801439850948160 ∧
    train_size 2251799813685201 ≠ 4 * 2251799813685201 / 5 := by
  refine ⟨by decide, by decide, by decide⟩

/-- C3 (amended): for every source collection of size `N` with
`1 ≤ N ≤ 2^49` — far beyond any feasible dataset — the partitioner computes
`train_size = int(0.8 * N)` equal to the exact rational floor `4N/5`, assigns
exactly that many indices to the training partition and the remaining
`N - 4N/5` to the validation partition. -/
theorem train_size_is_exact_floor_below_2_pow_49 (N : ℕ) (h1 : 1 ≤ N)
    (h2 : N ≤ 2 ^ 49) :
    train_size N = 4 * N / 5 ∧ val_size N = N - 4 * N / 5 ∧
    ∀ perm : List ℕ, perm.Perm (List.range N) →
      ((random_split perm (train_size N)).1).length = 4 * N / 5 ∧
      ((random_split perm (train_size N)).2).length = N - 4 * N / 5 := by
  have ht := train_size_eq N h1 h2
  refine ⟨ht, by unfold val_size; rw [ht], ?_⟩
  intro perm hperm
  have hlen : perm.length = N := by rw [hperm.length_eq, List.length_range]
  constructor
  · simp only [random_split, List.length_take, hlen, ht]
    omega
  · simp only [random_split, List.length_drop, hlen, ht]

/-- Witness for the amended C3, at `N = 5`: the hypotheses hold and the split
is 4 against 1. -/
theorem train_size_is_exact_floor_witness :
    (1 ≤ 5 ∧ 5 ≤ 2 ^ 49) ∧
    (train_size 5 = 4 * 5 / 5 ∧ val_size 5 = 5 - 4 * 5 / 5 ∧
      ∀ perm : List ℕ, perm.Perm (List.range 5) →
        ((random_split perm (train_size 5)).1).length = 4 * 5 / 5 ∧
        ((random_split perm (train_size 5)).2).length = 5 - 4 * 5 / 5) :=
  ⟨⟨by decide, by decide⟩,
    train_size_is_exact_floor_below_2_pow_49 5 (by decide) (by decide)⟩

/-- C4: for a permutation of the `N` source indices, the two partitions cut
by `random_split` at `train_size N` have lengths summing to `N`, are drawn
from disjoint index sets, their union is (a permutation of) the full index
range, and one epoch of the loop leaves both partitions untouched. -/
theorem split_disjoint_exhaustive_and_epoch_stable (N : ℕ) (perm : List ℕ)
    (hperm : perm.Perm (List.range N)) :
    ((random_split perm (train_size N)).1).length = train_size N ∧
    ((random_split perm (train_size N)).2).length = N - train_size N ∧
    ((random_split perm (train_size N)).1).length +
      ((random_split perm (train_size N)).2).length = N ∧
    List.Disjoint (random_split perm (train_size N)).1
      (random_split perm (train_size N)).2 ∧
    ((random_split perm (train_size N)).1 ++
      (random_split perm (train_size N)).2).Perm (List.range N) ∧
    ∀ fw lossFn gradFn shT shV rs t,
      (runEpoch fw lossFn gradFn shT shV rs t).trainPart = rs.trainPart ∧
      (runEpoch fw lossFn gradFn shT shV rs t).valPart = rs.valPart := by
  have ht : train_size N ≤ N := train_size_le N
  have hlen : perm.length = N := by rw [hperm.length_eq, List.length_range]
  have hnodup : perm.Nodup := hperm.nodup_iff.mpr (List.nodup_range N)
  refine ⟨?_, ?_, ?_, ?_, ?_, ?_⟩
  · simp only [random_split, List.length_take, hlen]
    omega
  · simp only [random_split, List.length_drop, hlen]
  · simp only [random_split, List.length_take, List.length_drop, hlen]
    omega
  · exact List.disjoint_take_drop hnodup le_rfl
  · simp only [random_split, List.take_append_drop]
    exact hperm
  · intro fw lossFn gradFn shT shV rs t
    exact ⟨rfl, rfl⟩

/-- Witness for C4, at `N = 5` with the permutation `[3, 0, 4, 1, 2]`. -/
theorem split_disjoint_exhaustive_witness :
    [3, 0, 4, 1, 2].Perm (List.range 5) ∧
    (((random_split [3, 0, 4, 1, 2] (train_size 5)).1).length = train_size 5 ∧
      ((random_split [3, 0, 4, 1, 2] (train_size 5)).2).length = 5 - train_size 5 ∧
      ((random_split [3, 0, 4, 1, 2] (train_size 5)).1).length +
        ((random_split [3, 0, 4, 1, 2] (train_size 5)).2).length = 5 ∧
      List.Disjoint (random_split [3, 0, 4, 1, 2] (train_size 5)).1
        (random_split [3, 0, 4, 1, 2] (train_size 5)).2 ∧
      ((random_split [3, 0, 4, 1, 2] (train_size 5)).1 ++
        (random_split [3, 0, 4, 1, 2] (train_size 5)).2).Perm (List.range 5) ∧
      ∀ fw lossFn gradFn shT shV rs t,
        (runEpoch fw lossFn gradFn shT shV rs t).trainPart = rs.trainPart ∧
        (runEpoch fw lossFn gradFn shT shV rs t).valPart = rs.valPart) :=
  ⟨by decide,
    split_disjoint_exhaustive_and_epoch_stable 5 [3, 0, 4, 1, 2] (by decide)⟩

/-- C5: on a nonempty partition the evaluation function returns
`some (mean loss, accuracy percentage)`: the per-batch losses summed and
divided by the number of batches, and the count of samples whose
highest-scoring class index equals the true label, divided by the partition
size and multiplied by 100. -/
theorem evaluation_returns_mean_loss_and_accuracy
    (fw : List ℚ → List ℚ → List ℚ) (lossFn : List (List ℚ) → List ℕ → ℚ)
    (B : ℕ) (part : List Sample) (m : NetState) (hB : 0 < B) (hne : part ≠ []) :
    (test fw lossFn B part m).2 =
      some (((chunks B part).map (batchLoss fw lossFn m.params)).sum /
          ((chunks B part).length : ℚ),
        100 * ((((chunks B part).map fun b =>
          batchCorrect (forwardBatch fw m.params b) (b.map Sample.label)).sum : ℚ) /
          (part.length : ℚ))) := by
  rw [test_eval fw lossFn B part m hB hne]

/-- Witness for C5: one two-class score vector, a one-sample partition. -/
theorem evaluation_returns_mean_loss_witness :
    (0 < 2 ∧ [Sample.mk [] 0] ≠ []) ∧
    (test (fun _ _ => [1, 0]) (fun _ _ => 3) 2 [Sample.mk [] 0]
        (NetState.mk [] true)).2 =
      some (((chunks 2 [Sample.mk [] 0]).map
          (batchLoss (fun _ _ => [1, 0]) (fun _ _ => 3) (NetState.mk [] true).params)).sum /
          ((chunks 2 [Sample.mk [] 0]).length : ℚ),
        100 * ((((chunks 2 [Sample.mk [] 0]).map fun b =>
          batchCorrect (forwardBatch (fun _ _ => [1, 0]) (NetState.mk [] true).params b)
            (b.map Sample.label)).sum : ℚ) /
          (([Sample.mk [] 0] : List Sample).length : ℚ))) :=
  ⟨⟨by decide, by decide⟩,
    evaluation_returns_mean_loss_and_accuracy (fun _ _ => [1, 0]) (fun _ _ => 3)
      2 [Sample.mk [] 0] (NetState.mk [] true) (by decide) (by decide)⟩

/-- C6: the evaluation function never mutates the model parameters: for
every model state and partition (hence for the per-epoch validation pass and
the final test pass alike) the parameter vector after the call equals the one
before.  Only the train/eval mode flag is written (`model.eval()`). -/
theorem evaluation_preserves_parameters
    (fw : List ℚ → List ℚ → List ℚ) (lossFn : List (List ℚ) → List ℕ → ℚ)
    (B : ℕ) (part : List Sample) (m : NetState) :
    ((test fw lossFn B part m).1).params = m.params := by
  rw [test_fst]

/-- C7: for every batch of the training partition the training pass performs,
in source order: forward pass, cross-entropy loss on the predictions and true
labels, backpropagation accumulating gradients, one SGD step with momentum
0.9 and learning rate 1e-3 mutating the parameters, and a gradient clear
before the next batch; and it returns the last batch's loss as the reported
training-loss signal.  The first equation exhibits one loop iteration (the
state after `bs ++ [b]` in terms of the state after `bs`), the second the
returned loss, the third ties `train` to its batch sequence. -/
theorem training_step_order_and_last_loss
    (fw : List ℚ → List ℚ → List ℚ) (lossFn : List (List ℚ) → List ℕ → ℚ)
    (gradFn : List ℚ → List Sample → List ℚ) (bs : List (List Sample))
    (b : List Sample) (net : NetState) (opt : OptimState) :
    (let s := trainGo fw lossFn gradFn lr momentum bs
        { net with training := true } opt 0
     let preds := forwardBatch fw s.1.params b
     let L := lossFn preds (b.map Sample.label)
     let g := List.zipWith (· + ·) s.2.1.grads (gradFn s.1.params b)
     let buf' := List.zipWith (fun bi gi => momentum * bi + gi) s.2.1.buf g
     let params' := List.zipWith (fun pi vi => pi - lr * vi) s.1.params buf'
     trainGo fw lossFn gradFn lr momentum (bs ++ [b])
        { net with training := true } opt 0 =
       ({ s.1 with params := params' },
        { buf := buf', grads := g.map fun _ => 0 }, L)) ∧
    (trainGo fw lossFn gradFn lr momentum (bs ++ [b])
        { net with training := true } opt 0).2.2 =
      batchLoss fw lossFn
        (trainGo fw lossFn gradFn lr momentum bs
          { net with training := true } opt 0).1.params b ∧
    ∀ B part, train fw lossFn gradFn lr momentum B part net opt =
      trainGo fw lossFn gradFn lr momentum (chunks B part)
        { net with training := true } opt 0 := by
  refine ⟨?_, ?_, fun B part => rfl⟩
  · rw [trainGo_append]
    rfl
  · rw [trainGo_append]
    rfl

/-- C8: with batch size `B ≥ 1`, the batch producer yields exactly
`⌈length/B⌉ = (length + B - 1)/B` batches, their concatenation is the
partition itself (every sample covered exactly once, so batch sizes sum to
the partition size), every batch but the last has exactly `B` samples, and
every batch is nonempty with at most `B` samples. -/
theorem batch_producer_covers_partition {α : Type} (B : ℕ) (l : List α)
    (hB : 0 < B) :
    (chunks B l).length = (l.length + B - 1) / B ∧
    (chunks B l).flatten = l ∧
    ((chunks B l).map List.length).sum = l.length ∧
    (∀ c ∈ (chunks B l).dropLast, c.length = B) ∧
    (∀ c ∈ chunks B l, c.length ≤ B ∧ c ≠ []) := by
  have hBne : ¬B = 0 := by omega
  unfold chunks
  rw [if_neg hBne]
  refine ⟨chunksGo_length B hB l.length l le_rfl, chunksGo_flatten B hB l.length l le_rfl,
    ?_, chunksGo_dropLast B hB l.length l le_rfl, chunksGo_batch_le B hB l.length l le_rfl⟩
  calc ((chunksGo B l.length l).map List.length).sum
      = (chunksGo B l.length l).flatten.length := (List.length_flatten _).symm
    _ = l.length := by rw [chunksGo_flatten B hB l.length l le_rfl]

/-- Witness for C8: batch size 2 over a three-element partition. -/
theorem batch_producer_covers_witness :
    0 < 2 ∧
    ((chunks 2 [10, 11, 12]).length = (([10, 11, 12] : List ℕ).length + 2 - 1) / 2 ∧
      (chunks 2 [10, 11, 12]).flatten = [10, 11, 12] ∧
      ((chunks 2 [10, 11, 12]).map List.length).sum = ([10, 11, 12] : List ℕ).length ∧
      (∀ c ∈ (chunks 2 [10, 11, 12]).dropLast, c.length = 2) ∧
      (∀ c ∈ chunks 2 ([10, 11, 12] : List ℕ), c.length ≤ 2 ∧ c ≠ [])) :=
  ⟨by decide, batch_producer_covers_partition 2 [10, 11, 12] (by decide)⟩

/-- C9: evaluation of a fixed model on a fixed (non-shuffled) partition is
idempotent: running `test` a second time, on the model object the first call
returned, yields the same loss and the same accuracy, and on a nonempty
partition both are delivered as `some` pair. -/
theorem evaluation_idempotent
    (fw : List ℚ → List ℚ → List ℚ) (lossFn : List (List ℚ) → List ℕ → ℚ)
    (B : ℕ) (part : List Sample) (m : NetState) (hB : 0 < B) (hne : part ≠ []) :
    (test fw lossFn B part ((test fw lossFn B part m).1)).2 =
      (test fw lossFn B part m).2 ∧
    ∃ L A, (test fw lossFn B part m).2 = some (L, A) := by
  constructor
  · rw [test_fst fw lossFn B part m]
    rfl
  · exact ⟨_, _, by rw [test_eval fw lossFn B part m hB hne]⟩

/-- Witness for C9: a one-sample partition with the notebook batch size. -/
theorem evaluation_idempotent_witness :
    (0 < 64 ∧ [Sample.mk [] 0] ≠ []) ∧
    ((test (fun _ _ => []) (fun _ _ => 0) 64 [Sample.mk [] 0]
        ((test (fun _ _ => []) (fun _ _ => 0) 64 [Sample.mk [] 0]
          (NetState.mk [] true)).1)).2 =
      (test (fun _ _ => []) (fun _ _ => 0) 64 [Sample.mk [] 0]
        (NetState.mk [] true)).2 ∧
    ∃ L A, (test (fun _ _ => []) (fun _ _ => 0) 64 [Sample.mk [] 0]
        (NetState.mk [] true)).2 = some (L, A)) :=
  ⟨⟨by decide, by decide⟩,
    evaluation_idempotent (fun _ _ => []) (fun _ _ => 0) 64 [Sample.mk [] 0]
      (NetState.mk [] true) (by decide) (by decide)⟩

/-- C10: the two divisions in the evaluation function are unguarded, so a
nonempty partition is a precondition: with at least one sample (hence at
least one batch) both divisions are well-defined and a `some` result is
returned; on the empty partition the pass has zero batches and the call
fails (`ZeroDivisionError`, modelled as `none`) instead of returning a
result. -/
theorem evaluation_requires_nonempty_partition
    (fw : List ℚ → List ℚ → List ℚ) (lossFn : List (List ℚ) → List ℕ → ℚ)
    (B : ℕ) (m : NetState) (hB : 0 < B) :
    (∀ part : List Sample, part ≠ [] →
      ∃ L A, (test fw lossFn B part m).2 = some (L, A)) ∧
    (test fw lossFn B [] m).2 = none := by
  constructor
  · intro part hne
    exact ⟨_, _, by rw [test_eval fw lossFn B part m hB hne]⟩
  · have hch : chunks B ([] : List Sample) = [] := by
      unfold chunks
      split <;> rfl
    simp [test, hch]

/-- Witness for C10, at the notebook batch size 64. -/
theorem evaluation_requires_nonempty_witness :
    0 < 64 ∧
    ((∀ part : List Sample, part ≠ [] →
      ∃ L A, (test (fun _ _ => []) (fun _ _ => 0) 64 part
        (NetState.mk [] true)).2 = some (L, A)) ∧
    (test (fun _ _ => []) (fun _ _ => 0) 64 [] (NetState.mk [] true)).2 = none) :=
  ⟨by decide,
    evaluation_requires_nonempty_partition (fun _ _ => []) (fun _ _ => 0) 64
      (NetState.mk [] true) (by decide)⟩

end CatDog
